import Mathlib

/-!
# Verification of the telebot price-monitoring pipeline

Shallow embedding of the core logic of `src/index.mjs` (a Telegram price
tracker bot): URL canonicalization (`sanitizeAmazonURL`), price
normalization (the inline `parseFloat` pipeline in `scrapeProduct`),
the monitoring cycle (`checkPrices`), the `/add`, `/remove` handlers and
the notification fan-out loop.

Modelling conventions:
* JS numbers are modelled as `ℚ` (the claims under scrutiny are about
  order/arithmetic relations, not IEEE rounding).
* A JS value that the code guards with `typeof x === "number"`,
  `x || fallback` or `Array.isArray` is modelled as `Option _`; the empty
  string, `null` and `undefined` all collapse to `none` (the source only
  ever stores non-empty strings or null in those fields, since the
  extractor returns trimmed non-empty text or null).
* Timestamps (`new Date().toISOString()`) are passed in as an opaque
  `now : String` parameter.
* The WHATWG `new URL` constructor used by `sanitizeAmazonURL` is a
  platform primitive, modelled here (`parseURLChars`) restricted to the
  `http://` / `https://` URLs this bot handles: scheme, then a non-empty
  host running to the first `/`, `?` or `#`, then a pathname running to
  the first `?` or `#` (an empty pathname serializes as `/`, as the
  WHATWG serializer does for special schemes); `u.origin + u.pathname`
  is then scheme ++ "://" ++ host ++ pathname. Strings the model does
  not parse take the `catch` branch, `url.split("?")[0]`.
-/

namespace Telebot

/-! ## List/string utilities -/

/-- Boolean test that `p` is an initial segment of `l`. -/
def hasPfx : List Char → List Char → Bool
  | [], _ => true
  | _ :: _, [] => false
  | p :: ps, c :: cs => p == c && hasPfx ps cs

/-- Boolean test that `n` occurs as a contiguous run inside `l`
(JS `String.prototype.includes`). -/
def hasSub (n : List Char) : List Char → Bool
  | [] => n.isEmpty
  | c :: cs => hasPfx n (c :: cs) || hasSub n cs

/-- JS `hay.includes(needle)`. -/
def strIncludes (hay needle : String) : Bool :=
  hasSub needle.toList hay.toList

theorem hasPfx_append (p r : List Char) : hasPfx p (p ++ r) = true := by
  induction p with
  | nil => rfl
  | cons c cs ih => simp [hasPfx, ih]

theorem hasPfx_exists_append {p l : List Char} (h : hasPfx p l = true) :
    ∃ r, l = p ++ r := by
  induction p generalizing l with
  | nil => exact ⟨l, rfl⟩
  | cons c cs ih =>
    cases l with
    | nil => simp [hasPfx] at h
    | cons d ds =>
      simp only [hasPfx, Bool.and_eq_true, beq_iff_eq] at h
      obtain ⟨r, hr⟩ := ih h.2
      exact ⟨r, by simp [h.1, hr]⟩

/-- A prefix of `l.takeWhile q` is a prefix of `l`. -/
theorem hasPfx_takeWhile {p : List Char} {q : Char → Bool} {l : List Char}
    (h : hasPfx p (l.takeWhile q) = true) : hasPfx p l = true := by
  induction p generalizing l with
  | nil => rfl
  | cons c cs ih =>
    cases l with
    | nil => simp [List.takeWhile, hasPfx] at h
    | cons d ds =>
      by_cases hq : q d
      · simp only [List.takeWhile, hq, hasPfx, Bool.and_eq_true] at h ⊢
        exact ⟨h.1, ih h.2⟩
      · simp [List.takeWhile, hq, hasPfx] at h

theorem takeWhile_takeWhile_self (q : Char → Bool) (l : List Char) :
    (l.takeWhile q).takeWhile q = l.takeWhile q := by
  induction l with
  | nil => rfl
  | cons c cs ih =>
    by_cases hq : q c
    · simp [List.takeWhile, hq, ih]
    · simp [List.takeWhile, hq]

theorem takeWhile_append_of_all {q : Char → Bool} {a : List Char}
    (ha : ∀ c ∈ a, q c = true) (b : List Char) :
    (a ++ b).takeWhile q = a ++ b.takeWhile q := by
  induction a with
  | nil => rfl
  | cons c cs ih =>
    have hc : q c = true := ha c (by simp)
    simp only [List.cons_append, List.takeWhile_cons, hc, if_true]
    rw [ih fun d hd => ha d (by simp [hd])]

theorem dropWhile_append_of_all {q : Char → Bool} {a : List Char}
    (ha : ∀ c ∈ a, q c = true) (b : List Char) :
    (a ++ b).dropWhile q = b.dropWhile q := by
  induction a with
  | nil => rfl
  | cons c cs ih =>
    have hc : q c = true := ha c (by simp)
    simp only [List.cons_append, List.dropWhile_cons, hc, if_true]
    exact ih fun d hd => ha d (by simp [hd])

theorem mem_takeWhile_sat {q : Char → Bool} {l : List Char} :
    ∀ c ∈ l.takeWhile q, q c = true := by
  intro c hc
  induction l with
  | nil => simp [List.takeWhile] at hc
  | cons d ds ih =>
    by_cases hq : q d
    · rw [List.takeWhile_cons, if_pos hq] at hc
      rcases List.mem_cons.mp hc with h | h
      · exact h ▸ hq
      · exact ih h
    · rw [List.takeWhile_cons, if_neg hq] at hc
      exact absurd hc (List.not_mem_nil c)

/-! ## URL canonicalization (`sanitizeAmazonURL`, src/index.mjs lines 53-61) -/

/-- The two special schemes the model recognises. -/
inductive Scheme where
  | http
  | https
deriving DecidableEq, Repr

/-- `scheme ++ "://"` as characters. -/
def Scheme.chars : Scheme → List Char
  | .http => ['h', 't', 't', 'p', ':', '/', '/']
  | .https => ['h', 't', 't', 'p', 's', ':', '/', '/']

/-- Split off the `http://` / `https://` scheme part, if present. -/
def schemeSplit (cs : List Char) : Option (Scheme × List Char) :=
  if hasPfx Scheme.https.chars cs then some (.https, cs.drop 8)
  else if hasPfx Scheme.http.chars cs then some (.http, cs.drop 7)
  else none

/-- A character ending the host component. -/
def isHostEnd (c : Char) : Bool := c == '/' || c == '?' || c == '#'

/-- A character ending the pathname component. -/
def isPathEnd (c : Char) : Bool := c == '?' || c == '#'

/-- Model of the WHATWG URL parse used by `new URL(url)` restricted to the
special schemes this bot handles; returns `(scheme, host, pathname)` where
the query and fragment have been discarded, or `none` when the constructor
would throw (no `http(s)://` scheme, or an empty host). -/
def parseURLChars (cs : List Char) : Option (Scheme × List Char × List Char) :=
  match schemeSplit cs with
  | none => none
  | some (sch, rest) =>
    let host := rest.takeWhile fun c => !isHostEnd c
    if host.isEmpty then none
    else
      let after := rest.dropWhile fun c => !isHostEnd c
      let path := after.takeWhile fun c => !isPathEnd c
      some (sch, host, if path.isEmpty then ['/'] else path)

/-- `u.origin + u.pathname` for a parsed URL. -/
def serializeURL (sch : Scheme) (host path : List Char) : List Char :=
  sch.chars ++ host ++ path

/-- `sanitizeAmazonURL`, character-level: `new URL(url)` then
`u.origin + u.pathname`, falling back to `url.split("?")[0]` when the
constructor throws. -/
def sanitizeChars (cs : List Char) : List Char :=
  match parseURLChars cs with
  | some (sch, host, path) => serializeURL sch host path
  | none => cs.takeWhile fun c => !(c == '?')

/-- `sanitizeAmazonURL` (src/index.mjs lines 53-61). -/
def sanitizeAmazonURL (url : String) : String :=
  String.mk (sanitizeChars url.toList)

/-! ## Price normalization (src/index.mjs lines 127-129)

`const price = priceText ? parseFloat(priceText.replace(/[^0-9.]/g, "")) : null;`
`if (price === null || isNaN(price) || price <= 0) throw new Error(...)` -/

/-- Characters the regex `[^0-9.]` keeps: digits and the decimal point. -/
def isPriceChar (c : Char) : Bool := c.isDigit || c == '.'

/-- `raw.replace(/[^0-9.]/g, "")`. -/
def stripNonPrice (s : String) : String :=
  String.mk (s.toList.filter isPriceChar)

/-- Value of a digit run, as a natural number (empty run gives 0). -/
def natOfDigits (cs : List Char) : Nat :=
  cs.foldl (fun n c => 10 * n + (c.toNat - '0'.toNat)) 0

/-- JS `parseFloat`, restricted to strings of digits and dots (the only
inputs it receives at this call site, after stripping): parse the longest
numeric prefix `digits [ "." digits ] | "." digits`; `none` is `NaN`. -/
def jsParseFloat (cs : List Char) : Option ℚ :=
  let ip := cs.takeWhile Char.isDigit
  match cs.dropWhile Char.isDigit with
  | c :: r2 =>
    if c == '.' then
      let fp := r2.takeWhile Char.isDigit
      if ip.isEmpty && fp.isEmpty then none
      else some ((natOfDigits ip : ℚ) + (natOfDigits fp : ℚ) / (10 : ℚ) ^ fp.length)
    else if ip.isEmpty then none else some (natOfDigits ip : ℚ)
  | [] => if ip.isEmpty then none else some (natOfDigits ip : ℚ)

/-- The price-normalization pipeline of `scrapeProduct`: `none` models both
the `null` result (falsy `priceText`, i.e. the extractor returned null; the
extractor never returns an empty string since it trims and tests) and the
thrown `"Precio inválido o no encontrado"` error (NaN or non-positive). -/
def normalizePrice (raw : Option String) : Option ℚ :=
  match raw with
  | none => none
  | some s =>
    match jsParseFloat (stripNonPrice s).toList with
    | none => none
    | some q => if q ≤ 0 then none else some q

/-! ## Data model -/

/-- One `{date, price}` sample of `product.history`. -/
structure HistEntry where
  date : String
  price : ℚ
deriving DecidableEq, Repr

/-- A tracked product (the objects stored in `priceData`). Fields the code
guards (`typeof x === "number"`, `x || fallback`, `Array.isArray`) are
`Option`s; `none` covers `null`/`undefined`/missing. -/
structure Product where
  url : Option String
  title : Option String
  price : Option ℚ
  lowestPrice : Option ℚ
  imageUrl : Option String
  addedDate : Option String
  addedBy : Option Int
  lastChecked : Option String
  history : Option (List HistEntry)
deriving DecidableEq, Repr

/-- The successful return of `scrapeProduct`: `{url, title, price, imageUrl}`
(the `url` field is just the argument echoed back and is never read by the
callers, so it is omitted). -/
structure ScrapeOk where
  title : String
  price : ℚ
  imageUrl : Option String
deriving DecidableEq, Repr

/-- The result of `scrapeProduct`: either `{error}` or the snapshot. -/
inductive ScrapeOutcome where
  | err (msg : String)
  | ok (snap : ScrapeOk)
deriving DecidableEq, Repr

/-- `priceData`, a JS object keyed by sanitized URL: an insertion-ordered
association list with pairwise-distinct keys, as JS object semantics give
(`Object.keys` returns the keys in this order for string keys). -/
abbrev Registry := List (String × Product)

/-- `priceData[key]` (reading). -/
def regGet (reg : Registry) (key : String) : Option Product :=
  match reg.find? fun e => e.1 == key with
  | some e => some e.2
  | none => none

/-- `priceData[key] = v`: overwrite in place when the key exists, else
append as the newest key. -/
def regSet (reg : Registry) (key : String) (v : Product) : Registry :=
  match reg with
  | [] => [(key, v)]
  | (k, w) :: rest => if k == key then (k, v) :: rest else (k, w) :: regSet rest key v

/-- `delete priceData[key]`. -/
def regDelete (reg : Registry) (key : String) : Registry :=
  match reg with
  | [] => []
  | (k, w) :: rest => if k == key then rest else (k, w) :: regDelete rest key

/-- `HISTORY_LIMIT` (src/index.mjs line 69). -/
def HISTORY_LIMIT : Nat := 120

/-- `h.slice(-n)` for a history that has just grown past the limit:
keep the last `n` entries. -/
def takeLast (n : Nat) (l : List HistEntry) : List HistEntry :=
  l.drop (l.length - n)

/-- `if (updated.history.length > HISTORY_LIMIT) updated.history =
updated.history.slice(-HISTORY_LIMIT)` (src/index.mjs line 196). -/
def cutHist (l : List HistEntry) : List HistEntry :=
  if HISTORY_LIMIT < l.length then takeLast HISTORY_LIMIT l else l

/-- The `updated` object built in `checkPrices` on a successful scrape
(src/index.mjs lines 178-196): overwrite `title`/`price`/`lastChecked`,
keep the old image when the scrape found none, take the min for
`lowestPrice`, append `{date: now, price}` to the history and cut it to
the last `HISTORY_LIMIT` entries. -/
def updateProduct (stored : Product) (sc : ScrapeOk) (sanitized now : String) :
    Product :=
  let originalLowest := stored.lowestPrice.getD sc.price
  let h1 := stored.history.getD [] ++ [⟨now, sc.price⟩]
  { url := some sanitized
    title := some sc.title
    price := some sc.price
    imageUrl := match sc.imageUrl with
      | some i => some i
      | none => stored.imageUrl
    lastChecked := some now
    addedDate := some (stored.addedDate.getD now)
    addedBy := stored.addedBy
    lowestPrice := some (min sc.price originalLowest)
    history := some (cutHist h1) }

/-- A detected price drop, as pushed onto `productsChanged`
(src/index.mjs lines 199-207). The code pushes `{url, message, imageUrl}`
where the message string interpolates the previous price, the new price,
`diff = originalPrice - scraped.price`, `pct = diff / originalPrice * 100`
and `updated.lowestPrice`; the event here records those computed values
(`.toFixed` is display formatting of the same numbers). -/
structure DropEvent where
  url : String
  previousPrice : ℚ
  newPrice : ℚ
  savings : ℚ
  percentage : ℚ
  lowest : ℚ
  imageUrl : Option String
deriving DecidableEq, Repr

/-- The conditional `if (scraped.price < originalPrice)` producing at most
one drop event for this product in this cycle. -/
def dropEvent? (stored : Product) (sc : ScrapeOk) (sanitized : String)
    (updated : Product) : Option DropEvent :=
  let originalPrice := stored.price.getD sc.price
  if sc.price < originalPrice then
    some { url := sanitized
           previousPrice := originalPrice
           newPrice := sc.price
           savings := originalPrice - sc.price
           percentage := (originalPrice - sc.price) / originalPrice * 100
           lowest := (updated.lowestPrice).getD sc.price
           imageUrl := updated.imageUrl }
  else none

/-- The running state of one `checkPrices` call: the registry plus the
`productsChanged` and `errors` accumulators. -/
structure CycleState where
  reg : Registry
  changed : List DropEvent
  errors : List String
deriving DecidableEq, Repr

/-- The error entry `Error en ${stored.title || key}: ${scraped.error}`. -/
def errMsg (stored : Product) (key msg : String) : String :=
  "Error en " ++ stored.title.getD key ++ ": " ++ msg

/-- One iteration of the `for (const key of keys)` loop of `checkPrices`
(src/index.mjs lines 156-215). `scrapeOf` is the page-scrape collaborator:
what `scrapeProduct(page, sanitized)` returns for each sanitized URL. -/
def stepKey (scrapeOf : String → ScrapeOutcome) (now : String)
    (st : CycleState) (key : String) : CycleState :=
  match regGet st.reg key with
  | none => st
  | some stored =>
    let sourceUrl := stored.url.getD key
    let sanitized := sanitizeAmazonURL sourceUrl
    match scrapeOf sanitized with
    | .err m =>
      { st with
        reg := regSet st.reg key { stored with lastChecked := some now }
        errors := st.errors ++ [errMsg stored key m] }
    | .ok sc =>
      let updated := updateProduct stored sc sanitized now
      let ev? := dropEvent? stored sc sanitized updated
      let reg1 := regSet st.reg sanitized updated
      let reg2 := if sanitized == key then reg1 else regDelete reg1 key
      { reg := reg2
        changed := st.changed ++ ev?.toList
        errors := st.errors }

/-- `checkPrices` (src/index.mjs lines 139-250), up to the notification
fan-out: iterate `stepKey` over the snapshot `Object.keys(priceData)`,
then call `saveData()` exactly once. The second component is the list of
registry snapshots persisted to disk during the call — empty when the
registry was empty (the early `return` at line 141-144 skips the save). -/
def checkPrices (scrapeOf : String → ScrapeOutcome) (now : String)
    (reg : Registry) : CycleState × List Registry :=
  if reg.isEmpty then (⟨reg, [], []⟩, [])
  else
    let keys := reg.map Prod.fst
    let final := keys.foldl (stepKey scrapeOf now) ⟨reg, [], []⟩
    (final, [final.reg])

/-- The product object built by the `/add` handler on a successful scrape
(src/index.mjs lines 427-437). -/
def addProduct (sanitized now : String) (chatId : Int) (sc : ScrapeOk) :
    Product :=
  { url := some sanitized
    title := some sc.title
    price := some sc.price
    lowestPrice := some sc.price
    imageUrl := sc.imageUrl
    addedDate := some now
    addedBy := some chatId
    lastChecked := some now
    history := some [⟨now, sc.price⟩] }

/-- One later successful observation of a product (the data one successful
`checkPrices` iteration feeds into `updateProduct`). -/
structure Obs where
  sc : ScrapeOk
  sanitized : String
  now : String
deriving DecidableEq, Repr

/-- Iterating successful monitoring cycles over one product. -/
def observeRun (p0 : Product) (obs : List Obs) : Product :=
  obs.foldl (fun pr ob => updateProduct pr ob.sc ob.sanitized ob.now) p0

/-! ## Notification fan-out (src/index.mjs lines 221-247) -/

/-- The notification fan-out: for every chat, for every changed product,
one delivery attempt; `send` models `bot.sendPhoto`/`bot.sendMessage`
(`false` = the call threw, which the `try/catch` turns into a log line).
Returns the chronological log of attempts with their outcomes. The outer
guard models `if (productsChanged.length)`. -/
def notifyLoop (send : Int → DropEvent → Bool) :
    List Int → List DropEvent → List (Int × DropEvent × Bool)
  | [], _ => []
  | c :: cs, changed =>
    changed.map (fun p => (c, p, send c p)) ++ notifyLoop send cs changed

/-- `notify`: the whole notification block of `checkPrices`. -/
def notify (send : Int → DropEvent → Bool) (chats : List Int)
    (changed : List DropEvent) : List (Int × DropEvent × Bool) :=
  if changed.isEmpty then [] else notifyLoop send chats changed

/-- Modelled from the spec: the set of all (recipient, event) pairs the
Notifier contract says must be attempted, in the source's iteration order
(recipients outer, events inner). -/
def allPairs (chats : List Int) (changed : List DropEvent) :
    List (Int × DropEvent) :=
  match chats with
  | [] => []
  | c :: cs => changed.map (fun p => (c, p)) ++ allPairs cs changed

/-! ## `/remove` handler (src/index.mjs lines 520-542) -/

/-- Outcome of `/remove`: the success message names the removed product's
title (falling back to its key), the failure message is the fixed
not-found text. -/
inductive RemoveOutcome where
  | removed (title : String)
  | notFound
deriving DecidableEq, Repr

/-- The partial-match predicate of the fallback:
`k.includes(raw) || (priceData[k].title && priceData[k].title.includes(raw))`. -/
def removeMatch (raw : String) (e : String × Product) : Bool :=
  strIncludes e.1 raw ||
    (match e.2.title with
     | some t => strIncludes t raw
     | none => false)

/-- The `/remove` handler's registry effect: delete under the sanitized
URL when tracked; otherwise delete the first product whose key or title
contains the raw input; otherwise report not-found and leave the registry
alone. -/
def removeProduct (raw : String) (reg : Registry) : RemoveOutcome × Registry :=
  let sanitized := sanitizeAmazonURL raw
  match regGet reg sanitized with
  | some p => (.removed (p.title.getD sanitized), regDelete reg sanitized)
  | none =>
    match reg.find? (removeMatch raw) with
    | some (k, p) => (.removed (p.title.getD k), regDelete reg k)
    | none => (.notFound, reg)

/-! ## Registry lemmas -/

theorem sbeq_false_of_ne {a b : String} (h : ¬a = b) : (a == b) = false := by
  simpa using h

theorem regGet_cons_self (k : String) (w : Product) (rest : Registry) :
    regGet ((k, w) :: rest) k = some w := by
  simp [regGet, List.find?]

theorem regGet_cons_ne {k x : String} (w : Product) (rest : Registry)
    (h : ¬k = x) : regGet ((k, w) :: rest) x = regGet rest x := by
  simp [regGet, List.find?, sbeq_false_of_ne h]

theorem regSet_cons_self (k : String) (w v : Product) (rest : Registry) :
    regSet ((k, w) :: rest) k v = (k, v) :: rest := by
  simp [regSet]

theorem regSet_cons_ne {k' k : String} (w v : Product) (rest : Registry)
    (h : ¬k' = k) :
    regSet ((k', w) :: rest) k v = (k', w) :: regSet rest k v := by
  simp [regSet, sbeq_false_of_ne h]

theorem regDelete_cons_self (k : String) (w : Product) (rest : Registry) :
    regDelete ((k, w) :: rest) k = rest := by
  simp [regDelete]

theorem regDelete_cons_ne {k' k : String} (w : Product) (rest : Registry)
    (h : ¬k' = k) :
    regDelete ((k', w) :: rest) k = (k', w) :: regDelete rest k := by
  simp [regDelete, sbeq_false_of_ne h]

theorem regGet_regSet_self (reg : Registry) (k : String) (v : Product) :
    regGet (regSet reg k v) k = some v := by
  induction reg with
  | nil => simp [regSet, regGet, List.find?]
  | cons e rest ih =>
    obtain ⟨k', w⟩ := e
    by_cases h : k' = k
    · subst h
      rw [regSet_cons_self, regGet_cons_self]
    · rw [regSet_cons_ne _ _ _ h, regGet_cons_ne _ _ h, ih]

theorem regGet_regSet_ne (reg : Registry) {k x : String} (v : Product)
    (h : ¬x = k) : regGet (regSet reg k v) x = regGet reg x := by
  induction reg with
  | nil => simp [regSet, regGet, List.find?, sbeq_false_of_ne fun hh => h hh.symm]
  | cons e rest ih =>
    obtain ⟨k', w⟩ := e
    by_cases hk : k' = k
    · subst hk
      rw [regSet_cons_self, regGet_cons_ne _ _ fun hh => h hh.symm,
        regGet_cons_ne _ _ fun hh => h hh.symm]
    · by_cases hx : k' = x
      · subst hx
        rw [regSet_cons_ne _ _ _ hk, regGet_cons_self, regGet_cons_self]
      · rw [regSet_cons_ne _ _ _ hk, regGet_cons_ne _ _ hx, regGet_cons_ne _ _ hx, ih]

theorem regGet_regDelete_ne (reg : Registry) {k x : String}
    (h : ¬x = k) : regGet (regDelete reg k) x = regGet reg x := by
  induction reg with
  | nil => simp [regDelete]
  | cons e rest ih =>
    obtain ⟨k', w⟩ := e
    by_cases hk : k' = k
    · subst hk
      rw [regDelete_cons_self, regGet_cons_ne _ _ fun hh => h hh.symm]
    · by_cases hx : k' = x
      · subst hx
        rw [regDelete_cons_ne _ _ hk, regGet_cons_self, regGet_cons_self]
      · rw [regDelete_cons_ne _ _ hk, regGet_cons_ne _ _ hx, regGet_cons_ne _ _ hx, ih]

theorem regDelete_sublist (reg : Registry) (k : String) :
    (regDelete reg k).Sublist reg := by
  induction reg with
  | nil => simp [regDelete]
  | cons e rest ih =>
    obtain ⟨k', w⟩ := e
    by_cases hk : k' = k
    · subst hk
      rw [regDelete_cons_self]
      exact (List.Sublist.refl rest).cons _
    · rw [regDelete_cons_ne _ _ hk]
      exact ih.cons₂ _

theorem regGet_eq_none_of_not_mem {reg : Registry} {k : String}
    (h : k ∉ reg.map Prod.fst) : regGet reg k = none := by
  induction reg with
  | nil => rfl
  | cons e rest ih =>
    obtain ⟨k', w⟩ := e
    simp only [List.map_cons, List.mem_cons, not_or] at h
    rw [regGet_cons_ne _ _ fun hh => h.1 hh.symm]
    exact ih h.2

theorem regGet_mem {reg : Registry} {k : String} {p : Product}
    (h : regGet reg k = some p) : (k, p) ∈ reg := by
  induction reg with
  | nil => simp [regGet, List.find?] at h
  | cons e rest ih =>
    obtain ⟨k', w⟩ := e
    by_cases hk : k' = k
    · subst hk
      rw [regGet_cons_self] at h
      cases h
      exact List.mem_cons_self _ _
    · rw [regGet_cons_ne _ _ hk] at h
      exact List.mem_cons_of_mem _ (ih h)

theorem mem_keys_regSet {reg : Registry} {k x : String} {v : Product}
    (h : x ∈ (regSet reg k v).map Prod.fst) :
    x ∈ reg.map Prod.fst ∨ x = k := by
  induction reg with
  | nil => simpa [regSet] using h
  | cons e rest ih =>
    obtain ⟨k', w⟩ := e
    by_cases hk : k' = k
    · subst hk
      rw [regSet_cons_self] at h
      refine Or.inl ?_
      simpa using h
    · rw [regSet_cons_ne _ _ _ hk] at h
      simp only [List.map_cons, List.mem_cons] at h ⊢
      rcases h with h | h
      · exact Or.inl (Or.inl h)
      · rcases ih h with h' | h'
        · exact Or.inl (Or.inr h')
        · exact Or.inr h'

theorem nodup_regSet {reg : Registry} (k : String) (v : Product)
    (h : (reg.map Prod.fst).Nodup) :
    ((regSet reg k v).map Prod.fst).Nodup := by
  induction reg with
  | nil => simp [regSet]
  | cons e rest ih =>
    obtain ⟨k', w⟩ := e
    simp only [List.map_cons, List.nodup_cons] at h
    by_cases hk : k' = k
    · subst hk
      rw [regSet_cons_self]
      simp only [List.map_cons, List.nodup_cons]
      exact h
    · rw [regSet_cons_ne _ _ _ hk]
      simp only [List.map_cons, List.nodup_cons]
      refine ⟨fun hm => ?_, ih h.2⟩
      rcases mem_keys_regSet hm with h' | h'
      · exact h.1 h'
      · exact hk (h' ▸ rfl)

theorem nodup_regDelete {reg : Registry} (k : String)
    (h : (reg.map Prod.fst).Nodup) :
    ((regDelete reg k).map Prod.fst).Nodup :=
  ((regDelete_sublist reg k).map Prod.fst).nodup h

theorem regGet_regDelete_self_of_nodup {reg : Registry} {k : String}
    (h : (reg.map Prod.fst).Nodup) : regGet (regDelete reg k) k = none := by
  induction reg with
  | nil => rfl
  | cons e rest ih =>
    obtain ⟨k', w⟩ := e
    simp only [List.map_cons, List.nodup_cons] at h
    by_cases hk : k' = k
    · subst hk
      rw [regDelete_cons_self]
      exact regGet_eq_none_of_not_mem h.1
    · rw [regDelete_cons_ne _ _ hk, regGet_cons_ne _ _ hk]
      exact ih h.2

/-! ## URL canonicalization lemmas -/

theorem takeWhile_eq_self_of_all {q : Char → Bool} {l : List Char}
    (h : ∀ c ∈ l, q c = true) : l.takeWhile q = l := by
  induction l with
  | nil => rfl
  | cons c cs ih =>
    rw [List.takeWhile_cons, if_pos (h c (by simp))]
    rw [ih fun d hd => h d (by simp [hd])]

theorem dropWhile_cases (q : Char → Bool) (l : List Char) :
    l.dropWhile q = [] ∨
      ∃ c t, l.dropWhile q = c :: t ∧ q c = false := by
  induction l with
  | nil => exact Or.inl rfl
  | cons c cs ih =>
    by_cases hq : q c
    · rw [List.dropWhile_cons, if_pos hq]
      exact ih
    · rw [List.dropWhile_cons, if_neg hq]
      exact Or.inr ⟨c, cs, rfl, by simpa using hq⟩

theorem schemeSplit_chars_append (sch : Scheme) (rest : List Char) :
    schemeSplit (Scheme.chars sch ++ rest) = some (sch, rest) := by
  cases sch with
  | http =>
    have h1 : hasPfx Scheme.https.chars (Scheme.chars .http ++ rest) = false := by
      simp [Scheme.chars, hasPfx]
    have h2 : hasPfx Scheme.http.chars (Scheme.chars .http ++ rest) = true :=
      hasPfx_append _ _
    have h3 : (7 : Nat) = (Scheme.chars Scheme.http).length := rfl
    simp only [schemeSplit, h1, h2, Bool.false_eq_true, if_false, if_true,
      h3, List.drop_left]
  | https =>
    have h2 : hasPfx Scheme.https.chars (Scheme.chars .https ++ rest) = true :=
      hasPfx_append _ _
    have h3 : (8 : Nat) = (Scheme.chars Scheme.https).length := rfl
    simp only [schemeSplit, h2, if_true, h3, List.drop_left]

theorem schemeSplit_eq_append {cs : List Char} {sch : Scheme} {rest : List Char}
    (h : schemeSplit cs = some (sch, rest)) : cs = Scheme.chars sch ++ rest := by
  by_cases h1 : hasPfx Scheme.https.chars cs
  · obtain ⟨r, hr⟩ := hasPfx_exists_append h1
    rw [schemeSplit, if_pos h1] at h
    have hd : cs.drop 8 = r := by
      have h3 : (8 : Nat) = (Scheme.chars Scheme.https).length := rfl
      rw [hr, h3, List.drop_left]
    rw [hd] at h
    cases h
    exact hr
  · by_cases h2 : hasPfx Scheme.http.chars cs
    · obtain ⟨r, hr⟩ := hasPfx_exists_append h2
      rw [schemeSplit, if_neg h1, if_pos h2] at h
      have hd : cs.drop 7 = r := by
        have h3 : (7 : Nat) = (Scheme.chars Scheme.http).length := rfl
        rw [hr, h3, List.drop_left]
      rw [hd] at h
      cases h
      exact hr
    · rw [schemeSplit, if_neg h1, if_neg h2] at h
      cases h

theorem scheme_chars_no_qmark (sch : Scheme) :
    ∀ c ∈ Scheme.chars sch, (!(c == '?')) = true := by
  cases sch <;> decide

/-- Inversion of a successful `parseURLChars`: the host is non-empty and
free of host-ending characters, and the pathname starts with `/` and is
free of `?`/`#`. -/
theorem parseURLChars_shape {cs : List Char} {sch : Scheme}
    {host path : List Char}
    (h : parseURLChars cs = some (sch, host, path)) :
    host ≠ [] ∧ (∀ c ∈ host, isHostEnd c = false) ∧
      ∃ pt, path = '/' :: pt ∧ ∀ c ∈ path, isPathEnd c = false := by
  rcases hss : schemeSplit cs with _ | ⟨sch', rest⟩
  · rw [parseURLChars, hss] at h
    exact absurd h (by simp)
  · rw [parseURLChars, hss] at h
    dsimp only at h
    by_cases he : (rest.takeWhile fun c => !isHostEnd c).isEmpty
    · rw [if_pos he] at h
      exact absurd h (by simp)
    · rw [if_neg he] at h
      simp only [Option.some.injEq, Prod.mk.injEq] at h
      obtain ⟨hsch, hhost, hpath⟩ := h
      subst hsch hhost
      refine ⟨by simpa [List.isEmpty_iff] using he, ?_, ?_⟩
      · intro c hc
        have := mem_takeWhile_sat c hc
        simpa using this
      · rcases dropWhile_cases (fun c => !isHostEnd c) rest with hd | ⟨c, t, hd, hc⟩
        · rw [hd] at hpath
          subst hpath
          exact ⟨[], rfl, by decide⟩
        · rw [hd] at hpath
          have hc' : isHostEnd c = true := by simpa using hc
          have : c = '/' ∨ c = '?' ∨ c = '#' := by
            simp only [isHostEnd, Bool.or_eq_true, beq_iff_eq] at hc'
            tauto
          rcases this with hc2 | hc2 | hc2
          · subst hc2
            have e1 : (('/' :: t).takeWhile fun c => !isPathEnd c) =
                '/' :: t.takeWhile (fun c => !isPathEnd c) := by
              rw [List.takeWhile_cons, if_pos (by decide)]
            rw [e1] at hpath
            have e2 : ¬(('/' : Char) :: t.takeWhile (fun c => !isPathEnd c)).isEmpty
                = true := by simp
            rw [if_neg e2] at hpath
            subst hpath
            refine ⟨_, rfl, ?_⟩
            intro d hd'
            rcases List.mem_cons.mp hd' with h' | h'
            · subst h'; decide
            · have := mem_takeWhile_sat d h'
              simpa using this
          · subst hc2
            have e1 : (('?' :: t).takeWhile fun c => !isPathEnd c) = [] := by
              rw [List.takeWhile_cons, if_neg (by decide)]
            rw [e1] at hpath
            simp at hpath
            subst hpath
            exact ⟨[], rfl, by decide⟩
          · subst hc2
            have e1 : (('#' :: t).takeWhile fun c => !isPathEnd c) = [] := by
              rw [List.takeWhile_cons, if_neg (by decide)]
            rw [e1] at hpath
            simp at hpath
            subst hpath
            exact ⟨[], rfl, by decide⟩

/-- Re-parsing a serialized URL gives back its components. -/
theorem parseURLChars_serialize {sch : Scheme} {host path : List Char}
    (hne : host ≠ []) (hh : ∀ c ∈ host, isHostEnd c = false)
    (hp : ∃ pt, path = '/' :: pt) (hpe : ∀ c ∈ path, isPathEnd c = false) :
    parseURLChars (serializeURL sch host path) = some (sch, host, path) := by
  obtain ⟨pt, hpt⟩ := hp
  have hser : serializeURL sch host path = Scheme.chars sch ++ (host ++ path) := by
    simp [serializeURL]
  rw [hser, parseURLChars, schemeSplit_chars_append]
  dsimp only
  have hq : ∀ c ∈ host, (!isHostEnd c) = true := fun c hc => by simp [hh c hc]
  have htw : ((host ++ path).takeWhile fun c => !isHostEnd c) = host := by
    rw [takeWhile_append_of_all hq]
    subst hpt
    rw [List.takeWhile_cons, if_neg (by decide)]
    simp
  have hdw : ((host ++ path).dropWhile fun c => !isHostEnd c) = path := by
    rw [dropWhile_append_of_all hq]
    subst hpt
    rw [List.dropWhile_cons, if_neg (by decide)]
  rw [htw, hdw]
  rw [if_neg (by simpa [List.isEmpty_iff] using hne)]
  rw [takeWhile_eq_self_of_all fun c hc => by simp [hpe c hc]]
  rw [hpt]
  simp

/-- Idempotence of `sanitizeAmazonURL`, character-level. -/
theorem sanitizeChars_idem (cs : List Char) :
    sanitizeChars (sanitizeChars cs) = sanitizeChars cs := by
  rcases h : parseURLChars cs with _ | ⟨sch, host, path⟩
  · -- fallback branch: the truncation at the first `?` is still unparseable
    have hin : sanitizeChars cs = cs.takeWhile fun c => !(c == '?') := by
      rw [sanitizeChars, h]
    have hnone : parseURLChars (cs.takeWhile fun c => !(c == '?')) = none := by
      rcases hss : schemeSplit cs with _ | ⟨sch, rest⟩
      · -- no scheme on `cs`, hence none on any of its initial segments
        rcases hss2 : schemeSplit (cs.takeWhile fun c => !(c == '?')) with _ | ⟨sch2, rest2⟩
        · rw [parseURLChars, hss2]
        · exfalso
          by_cases h1 : hasPfx Scheme.https.chars (cs.takeWhile fun c => !(c == '?'))
          · have := hasPfx_takeWhile h1
            rw [schemeSplit, if_pos this] at hss
            cases hss
          · by_cases h2 : hasPfx Scheme.http.chars (cs.takeWhile fun c => !(c == '?'))
            · have := hasPfx_takeWhile h2
              by_cases h3 : hasPfx Scheme.https.chars cs
              · rw [schemeSplit, if_pos h3] at hss
                cases hss
              · rw [schemeSplit, if_neg h3, if_pos this] at hss
                cases hss
            · rw [schemeSplit, if_neg h1, if_neg h2] at hss2
              cases hss2
      · -- scheme present but empty host: still an empty host after truncation
        have hcs : cs = Scheme.chars sch ++ rest := schemeSplit_eq_append hss
        have hemp : (rest.takeWhile fun c => !isHostEnd c).isEmpty = true := by
          by_contra he
          rw [parseURLChars, hss] at h
          dsimp only at h
          rw [if_neg he] at h
          exact absurd h (by simp)
        have htr : (cs.takeWhile fun c => !(c == '?')) =
            Scheme.chars sch ++ (rest.takeWhile fun c => !(c == '?')) := by
          rw [hcs, takeWhile_append_of_all (scheme_chars_no_qmark sch)]
        have hemp2 : ((rest.takeWhile fun c => !(c == '?')).takeWhile
            fun c => !isHostEnd c).isEmpty = true := by
          rcases rest with _ | ⟨c, r'⟩
          · rfl
          · have hce : isHostEnd c = true := by
              by_contra hce
              have hq : (!isHostEnd c) = true := by
                simp [(Bool.not_eq_true _).mp fun hcc => hce hcc]
              rw [List.takeWhile_cons, if_pos hq] at hemp
              simp at hemp
            have : c = '/' ∨ c = '?' ∨ c = '#' := by
              simp only [isHostEnd, Bool.or_eq_true, beq_iff_eq] at hce
              tauto
            rcases this with hc2 | hc2 | hc2
            · subst hc2
              have e1 : (('/' :: r').takeWhile fun c => !(c == '?')) =
                  '/' :: r'.takeWhile (fun c => !(c == '?')) := by
                rw [List.takeWhile_cons, if_pos (by decide)]
              rw [e1, List.takeWhile_cons, if_neg (by decide)]
              rfl
            · subst hc2
              have e1 : (('?' :: r').takeWhile fun c => !(c == '?')) = [] := by
                rw [List.takeWhile_cons, if_neg (by decide)]
              rw [e1]
              rfl
            · subst hc2
              have e1 : (('#' :: r').takeWhile fun c => !(c == '?')) =
                  '#' :: r'.takeWhile (fun c => !(c == '?')) := by
                rw [List.takeWhile_cons, if_pos (by decide)]
              rw [e1, List.takeWhile_cons, if_neg (by decide)]
              rfl
        rw [htr, parseURLChars, schemeSplit_chars_append]
        dsimp only
        rw [if_pos hemp2]
    rw [hin, sanitizeChars, hnone]
    dsimp only
    rw [takeWhile_takeWhile_self]
  · -- parsed branch: the serialization re-parses to itself
    obtain ⟨hne, hh, pt, hpt, hpe⟩ := parseURLChars_shape h
    have hin : sanitizeChars cs = serializeURL sch host path := by
      rw [sanitizeChars, h]
    rw [hin, sanitizeChars, parseURLChars_serialize hne hh ⟨pt, hpt⟩ hpe]

/-- Idempotence of `sanitizeAmazonURL`. -/
theorem sanitizeAmazonURL_idem (s : String) :
    sanitizeAmazonURL (sanitizeAmazonURL s) = sanitizeAmazonURL s := by
  have hmk : ∀ l : List Char, (String.mk l).toList = l := fun l => rfl
  rw [sanitizeAmazonURL, sanitizeAmazonURL, hmk, sanitizeChars_idem]

/-! ## Price-normalization lemmas -/

theorem jsParseFloat_frac {cs ip r2 fp : List Char}
    (h1 : cs.takeWhile Char.isDigit = ip)
    (h2 : cs.dropWhile Char.isDigit = '.' :: r2)
    (h3 : r2.takeWhile Char.isDigit = fp)
    (h4 : (ip.isEmpty && fp.isEmpty) = false) :
    jsParseFloat cs =
      some ((natOfDigits ip : ℚ) + (natOfDigits fp : ℚ) / (10 : ℚ) ^ fp.length) := by
  rw [jsParseFloat, h1, h2]
  dsimp only
  rw [if_pos (by decide : (('.' : Char) == '.') = true), h3, if_neg (by simp [h4])]

theorem normalizePrice_some_iff (s : String) (q : ℚ) :
    normalizePrice (some s) = some q ↔
      jsParseFloat (stripNonPrice s).toList = some q ∧ 0 < q := by
  rw [normalizePrice]
  rcases hp : jsParseFloat (stripNonPrice s).toList with _ | p
  · simp
  · dsimp only
    by_cases hle : p ≤ 0
    · rw [if_pos hle]
      constructor
      · intro h
        exact absurd h (by simp)
      · rintro ⟨hq, hq0⟩
        cases hq
        exact absurd hq0 (by simpa using hle)
    · rw [if_neg hle]
      constructor
      · intro h
        cases h
        exact ⟨rfl, lt_of_not_le hle⟩
      · rintro ⟨hq, _⟩
        exact hq

/-! ## Claim theorems: C5 and C6 -/

/-- C5: `sanitizeAmazonURL` is idempotent on every input string; every URL
the (modelled) constructor parses maps to scheme + host + path with query
and fragment stripped (in particular the spec's example); every string it
rejects maps to the naive truncation at the first `?`. -/
theorem claim_C5_canonicalization :
    (∀ s : String, sanitizeAmazonURL (sanitizeAmazonURL s) = sanitizeAmazonURL s) ∧
    (∀ (s : String) (sch : Scheme) (host path : List Char),
      parseURLChars s.toList = some (sch, host, path) →
      sanitizeAmazonURL s = String.mk (serializeURL sch host path)) ∧
    sanitizeAmazonURL "https://x.com/dp/ABC?ref=1#frag" = "https://x.com/dp/ABC" ∧
    (∀ s : String, parseURLChars s.toList = none →
      sanitizeAmazonURL s = String.mk (s.toList.takeWhile fun c => !(c == '?'))) := by
  refine ⟨sanitizeAmazonURL_idem, ?_, by decide, ?_⟩
  · intro s sch host path h
    rw [sanitizeAmazonURL, sanitizeChars, h]
  · intro s h
    rw [sanitizeAmazonURL, sanitizeChars, h]

/-- Witness for C5 at concrete inputs: one parseable URL (query stripped)
and one malformed input (truncated at `?`). -/
theorem claim_C5_canonicalization_witness :
    parseURLChars ("https://x.com/a?q=1").toList =
      some (Scheme.https, "x.com".toList, "/a".toList) ∧
    sanitizeAmazonURL "https://x.com/a?q=1" =
      String.mk (serializeURL Scheme.https "x.com".toList "/a".toList) ∧
    parseURLChars ("not a url?x").toList = none ∧
    sanitizeAmazonURL "not a url?x" =
      String.mk (("not a url?x" : String).toList.takeWhile fun c => !(c == '?')) :=
  ⟨by decide,
   claim_C5_canonicalization.2.1 "https://x.com/a?q=1" Scheme.https
     "x.com".toList "/a".toList (by decide),
   by decide,
   claim_C5_canonicalization.2.2.2 "not a url?x" (by decide)⟩

/-- C6: price normalization succeeds exactly when the raw string, stripped
of everything but digits and the decimal point, parses (in `parseFloat`'s
sense) to a strictly positive number; `"$1,234.56"` yields `1234.56`,
while `null`, `""`, `"free"` and `"0.00"` all fail. -/
theorem claim_C6_normalize_price :
    (∀ (s : String) (q : ℚ), normalizePrice (some s) = some q ↔
      jsParseFloat (stripNonPrice s).toList = some q ∧ 0 < q) ∧
    normalizePrice none = none ∧
    normalizePrice (some "$1,234.56") = some (1234.56 : ℚ) ∧
    normalizePrice (some "") = none ∧
    normalizePrice (some "free") = none ∧
    normalizePrice (some "0.00") = none := by
  refine ⟨normalizePrice_some_iff, rfl, ?_, by decide, by decide, ?_⟩
  · have h1 : stripNonPrice "$1,234.56" = "1234.56" := by decide
    have hd : "1234.56".toList.dropWhile Char.isDigit = '.' :: ['5', '6'] := by decide
    have h2 : jsParseFloat "1234.56".toList =
        some ((natOfDigits ['1', '2', '3', '4'] : ℚ) +
          (natOfDigits ['5', '6'] : ℚ) / (10 : ℚ) ^ (['5', '6'] : List Char).length) :=
      jsParseFloat_frac (by decide) hd (by decide) (by decide)
    have h3 : natOfDigits ['1', '2', '3', '4'] = 1234 := by decide
    have h4 : natOfDigits ['5', '6'] = 56 := by decide
    rw [normalizePrice, h1]
    rw [h2, h3, h4]
    norm_num
  · have h1 : stripNonPrice "0.00" = "0.00" := by decide
    have hd : "0.00".toList.dropWhile Char.isDigit = '.' :: ['0', '0'] := by decide
    have h2 : jsParseFloat "0.00".toList =
        some ((natOfDigits ['0'] : ℚ) +
          (natOfDigits ['0', '0'] : ℚ) / (10 : ℚ) ^ (['0', '0'] : List Char).length) :=
      jsParseFloat_frac (by decide) hd (by decide) (by decide)
    have h3 : natOfDigits ['0'] = 0 := by decide
    have h4 : natOfDigits ['0', '0'] = 0 := by decide
    rw [normalizePrice, h1]
    rw [h2, h3, h4]
    norm_num

/-! ## Cycle-step equations -/

theorem updateProduct_price (stored : Product) (sc : ScrapeOk) (san now : String) :
    (updateProduct stored sc san now).price = some sc.price := rfl

theorem updateProduct_lowestPrice (stored : Product) (sc : ScrapeOk)
    (san now : String) :
    (updateProduct stored sc san now).lowestPrice =
      some (min sc.price (stored.lowestPrice.getD sc.price)) := rfl

theorem updateProduct_lastChecked (stored : Product) (sc : ScrapeOk)
    (san now : String) :
    (updateProduct stored sc san now).lastChecked = some now := rfl

theorem updateProduct_history (stored : Product) (sc : ScrapeOk)
    (san now : String) :
    (updateProduct stored sc san now).history =
      some (cutHist (stored.history.getD [] ++ [⟨now, sc.price⟩])) := rfl

theorem updateProduct_imageUrl (stored : Product) (sc : ScrapeOk)
    (san now : String) :
    (updateProduct stored sc san now).imageUrl =
      match sc.imageUrl with
      | some i => some i
      | none => stored.imageUrl := rfl

theorem updateProduct_url (stored : Product) (sc : ScrapeOk) (san now : String) :
    (updateProduct stored sc san now).url = some san := rfl

theorem stepKey_none {scrapeOf : String → ScrapeOutcome} {now : String}
    {st : CycleState} {key : String} (hget : regGet st.reg key = none) :
    stepKey scrapeOf now st key = st := by
  rw [stepKey, hget]

theorem stepKey_err {scrapeOf : String → ScrapeOutcome} {now : String}
    {st : CycleState} {key : String} {stored : Product} {m : String}
    (hget : regGet st.reg key = some stored)
    (herr : scrapeOf (sanitizeAmazonURL (stored.url.getD key)) = .err m) :
    stepKey scrapeOf now st key =
      { st with
        reg := regSet st.reg key { stored with lastChecked := some now }
        errors := st.errors ++ [errMsg stored key m] } := by
  rw [stepKey, hget]
  dsimp only
  rw [herr]

theorem stepKey_ok {scrapeOf : String → ScrapeOutcome} {now : String}
    {st : CycleState} {key : String} {stored : Product} {sc : ScrapeOk}
    (hget : regGet st.reg key = some stored)
    (hok : scrapeOf (sanitizeAmazonURL (stored.url.getD key)) = .ok sc) :
    stepKey scrapeOf now st key =
      { reg :=
          if sanitizeAmazonURL (stored.url.getD key) == key then
            regSet st.reg (sanitizeAmazonURL (stored.url.getD key))
              (updateProduct stored sc (sanitizeAmazonURL (stored.url.getD key)) now)
          else
            regDelete
              (regSet st.reg (sanitizeAmazonURL (stored.url.getD key))
                (updateProduct stored sc (sanitizeAmazonURL (stored.url.getD key)) now))
              key
        changed := st.changed ++
          (dropEvent? stored sc (sanitizeAmazonURL (stored.url.getD key))
            (updateProduct stored sc (sanitizeAmazonURL (stored.url.getD key)) now)).toList
        errors := st.errors } := by
  rw [stepKey, hget]
  dsimp only
  rw [hok]

/-! ## Claim theorem: C1 -/

/-- C1: on a successful scrape, a drop event is appended iff the new price
is strictly below the stored price; it carries the previous and new
prices, `savings = previousPrice - newPrice`,
`percentage = savings / previousPrice * 100`, and the updated historical
minimum `lowestPrice = min(newPrice, storedLowest)`. -/
theorem claim_C1_strict_drop_event (scrapeOf : String → ScrapeOutcome)
    (now : String) (st : CycleState) (key : String) (stored : Product)
    (sc : ScrapeOk) (sp : ℚ)
    (hget : regGet st.reg key = some stored)
    (hsp : stored.price = some sp)
    (hok : scrapeOf (sanitizeAmazonURL (stored.url.getD key)) = .ok sc) :
    (stepKey scrapeOf now st key).changed =
      st.changed ++
        (if sc.price < sp then
          [{ url := sanitizeAmazonURL (stored.url.getD key)
             previousPrice := sp
             newPrice := sc.price
             savings := sp - sc.price
             percentage := (sp - sc.price) / sp * 100
             lowest := min sc.price (stored.lowestPrice.getD sc.price)
             imageUrl := (updateProduct stored sc
               (sanitizeAmazonURL (stored.url.getD key)) now).imageUrl }]
        else []) ∧
    (updateProduct stored sc (sanitizeAmazonURL (stored.url.getD key)) now).lowestPrice
      = some (min sc.price (stored.lowestPrice.getD sc.price)) := by
  refine ⟨?_, updateProduct_lowestPrice _ _ _ _⟩
  rw [stepKey_ok hget hok]
  dsimp only
  congr 1
  rw [dropEvent?, hsp]
  rw [Option.getD_some]
  by_cases hlt : sc.price < sp
  · rw [if_pos hlt, if_pos hlt]
    rw [updateProduct_lowestPrice, Option.getD_some]
    rfl
  · rw [if_neg hlt, if_neg hlt]
    rfl

/-- Witness for C1: a concrete cycle over one product priced 100 scraped
at 80 emits exactly one event with savings 20 and percentage 20, and one
scraped at 100 emits none. -/
theorem claim_C1_strict_drop_event_witness :
    (stepKey (fun _ => .ok ⟨"T", 80, none⟩) "t1"
        ⟨[("k", { url := some "k", title := some "T", price := some 100,
                  lowestPrice := some 100, imageUrl := none,
                  addedDate := some "t0", addedBy := none,
                  lastChecked := some "t0", history := some [] })], [], []⟩
        "k").changed =
      [{ url := sanitizeAmazonURL "k", previousPrice := 100, newPrice := 80,
         savings := 100 - 80, percentage := (100 - 80) / 100 * 100,
         lowest := min 80 100,
         imageUrl := (updateProduct
           { url := some "k", title := some "T", price := some 100,
             lowestPrice := some 100, imageUrl := none,
             addedDate := some "t0", addedBy := none,
             lastChecked := some "t0", history := some [] }
           ⟨"T", 80, none⟩ (sanitizeAmazonURL "k") "t1").imageUrl }] ∧
    (stepKey (fun _ => .ok ⟨"T", 100, none⟩) "t1"
        ⟨[("k", { url := some "k", title := some "T", price := some 100,
                  lowestPrice := some 100, imageUrl := none,
                  addedDate := some "t0", addedBy := none,
                  lastChecked := some "t0", history := some [] })], [], []⟩
        "k").changed = [] := by
  constructor
  · have h := claim_C1_strict_drop_event (fun _ => .ok ⟨"T", 80, none⟩) "t1"
      ⟨[("k", { url := some "k", title := some "T", price := some 100,
                lowestPrice := some 100, imageUrl := none,
                addedDate := some "t0", addedBy := none,
                lastChecked := some "t0", history := some [] })], [], []⟩
      "k"
      { url := some "k", title := some "T", price := some 100,
        lowestPrice := some 100, imageUrl := none,
        addedDate := some "t0", addedBy := none,
        lastChecked := some "t0", history := some [] }
      ⟨"T", 80, none⟩ 100 (by rw [regGet_cons_self]) rfl rfl
    rw [h.1, if_pos (by norm_num)]
    rfl
  · have h := claim_C1_strict_drop_event (fun _ => .ok ⟨"T", 100, none⟩) "t1"
      ⟨[("k", { url := some "k", title := some "T", price := some 100,
                lowestPrice := some 100, imageUrl := none,
                addedDate := some "t0", addedBy := none,
                lastChecked := some "t0", history := some [] })], [], []⟩
      "k"
      { url := some "k", title := some "T", price := some 100,
        lowestPrice := some 100, imageUrl := none,
        addedDate := some "t0", addedBy := none,
        lastChecked := some "t0", history := some [] }
      ⟨"T", 100, none⟩ 100 (by rw [regGet_cons_self]) rfl rfl
    rw [h.1, if_neg (by norm_num)]
    rfl

/-! ## Claim theorem: C8 -/

/-- C8: a successful cycle observation always overwrites `price`,
`lowestPrice`, `history` and `lastChecked`, while `imageUrl` is taken from
the scrape only when the scrape found one and is otherwise retained from
the stored product (never nulled out). -/
theorem claim_C8_image_retention (stored : Product) (sc : ScrapeOk)
    (san now : String) :
    (sc.imageUrl = none →
      (updateProduct stored sc san now).imageUrl = stored.imageUrl) ∧
    (∀ i, sc.imageUrl = some i →
      (updateProduct stored sc san now).imageUrl = some i) ∧
    (updateProduct stored sc san now).price = some sc.price ∧
    (updateProduct stored sc san now).lowestPrice =
      some (min sc.price (stored.lowestPrice.getD sc.price)) ∧
    (updateProduct stored sc san now).lastChecked = some now ∧
    (updateProduct stored sc san now).history =
      some (cutHist (stored.history.getD [] ++ [⟨now, sc.price⟩])) := by
  refine ⟨?_, ?_, updateProduct_price _ _ _ _, updateProduct_lowestPrice _ _ _ _,
    updateProduct_lastChecked _ _ _ _, updateProduct_history _ _ _ _⟩
  · intro h
    rw [updateProduct_imageUrl, h]
  · intro i h
    rw [updateProduct_imageUrl, h]

/-- Witness for C8: a stored product with an image scraped with no image
keeps its image; with a fresh image it takes the new one. -/
theorem claim_C8_image_retention_witness :
    (updateProduct
      { url := some "k", title := some "T", price := some 10,
        lowestPrice := some 10, imageUrl := some "old.jpg",
        addedDate := some "t0", addedBy := none, lastChecked := some "t0",
        history := some [] }
      ⟨"T", 9, none⟩ "k" "t1").imageUrl = some "old.jpg" ∧
    (updateProduct
      { url := some "k", title := some "T", price := some 10,
        lowestPrice := some 10, imageUrl := some "old.jpg",
        addedDate := some "t0", addedBy := none, lastChecked := some "t0",
        history := some [] }
      ⟨"T", 9, some "new.jpg"⟩ "k" "t1").imageUrl = some "new.jpg" :=
  ⟨(claim_C8_image_retention _ ⟨"T", 9, none⟩ "k" "t1").1 rfl,
   (claim_C8_image_retention _ ⟨"T", 9, some "new.jpg"⟩ "k" "t1").2.1 "new.jpg" rfl⟩

/-! ## Claim theorem: C9 -/

theorem notifyLoop_map_proj (send : Int → DropEvent → Bool) (cs : List Int)
    (changed : List DropEvent) :
    (notifyLoop send cs changed).map (fun a => (a.1, a.2.1)) =
      allPairs cs changed := by
  induction cs with
  | nil => rfl
  | cons c cs ih =>
    rw [notifyLoop, allPairs, List.map_append, ih, List.map_map]
    rfl

theorem allPairs_nil_right (cs : List Int) : allPairs cs [] = [] := by
  induction cs with
  | nil => rfl
  | cons c cs ih => rw [allPairs, ih, List.map_nil, List.nil_append]

theorem mem_allPairs (cs : List Int) (changed : List DropEvent)
    (c : Int) (p : DropEvent) :
    (c, p) ∈ allPairs cs changed ↔ c ∈ cs ∧ p ∈ changed := by
  induction cs with
  | nil => simp [allPairs]
  | cons d ds ih =>
    simp only [allPairs, List.mem_append, List.mem_map, ih, List.mem_cons,
      Prod.mk.injEq]
    constructor
    · rintro (⟨q, hq, hc, hp⟩ | ⟨hc, hp⟩)
      · exact ⟨Or.inl hc.symm, hp ▸ hq⟩
      · exact ⟨Or.inr hc, hp⟩
    · rintro ⟨hc | hc, hp⟩
      · exact Or.inl ⟨p, hp, hc.symm, rfl⟩
      · exact Or.inr ⟨hc, hp⟩

/-- C9: the notifier attempts delivery of every (recipient, event) pair —
the attempt log projects to exactly the full cross product, in order —
and the set of attempts is independent of which deliveries fail, so one
failing pair never prevents the remaining attempts. -/
theorem claim_C9_notifier_isolation :
    (∀ (send : Int → DropEvent → Bool) (chats : List Int)
      (changed : List DropEvent),
      (notify send chats changed).map (fun a => (a.1, a.2.1)) =
        allPairs chats changed) ∧
    (∀ (send send' : Int → DropEvent → Bool) (chats : List Int)
      (changed : List DropEvent),
      (notify send chats changed).map (fun a => (a.1, a.2.1)) =
        (notify send' chats changed).map (fun a => (a.1, a.2.1))) ∧
    (∀ (send : Int → DropEvent → Bool) (chats : List Int)
      (changed : List DropEvent) (c : Int) (p : DropEvent),
      (c, p) ∈ (notify send chats changed).map (fun a => (a.1, a.2.1)) ↔
        c ∈ chats ∧ p ∈ changed) := by
  have hmain : ∀ (send : Int → DropEvent → Bool) (chats : List Int)
      (changed : List DropEvent),
      (notify send chats changed).map (fun a => (a.1, a.2.1)) =
        allPairs chats changed := by
    intro send chats changed
    rw [notify]
    by_cases he : changed.isEmpty
    · rw [if_pos he]
      have : changed = [] := by simpa [List.isEmpty_iff] using he
      rw [this, allPairs_nil_right]
      rfl
    · rw [if_neg he, notifyLoop_map_proj]
  refine ⟨hmain, fun send send' chats changed => ?_, fun send chats changed c p => ?_⟩
  · rw [hmain, hmain]
  · rw [hmain]
    exact mem_allPairs chats changed c p

/-! ## Claim theorem: C10 -/

/-- C10: when the canonicalized URL is not a registry key, `/remove` falls
back to deleting the first product whose key or title contains the raw
input as a substring; only when no partial match exists does it report
not-found, leaving the registry unchanged. -/
theorem claim_C10_remove_fallback :
    (∀ (raw : String) (reg : Registry) (k : String) (p : Product),
      regGet reg (sanitizeAmazonURL raw) = none →
      reg.find? (removeMatch raw) = some (k, p) →
      removeProduct raw reg = (.removed (p.title.getD k), regDelete reg k)) ∧
    (∀ (raw : String) (reg : Registry),
      regGet reg (sanitizeAmazonURL raw) = none →
      reg.find? (removeMatch raw) = none →
      removeProduct raw reg = (.notFound, reg)) := by
  constructor
  · intro raw reg k p hget hfind
    rw [removeProduct]
    rw [hget]
    dsimp only
    rw [hfind]
  · intro raw reg hget hfind
    rw [removeProduct]
    rw [hget]
    dsimp only
    rw [hfind]

/-- A concrete tracked product for the C10 witness. -/
def sampleKindle : Product :=
  { url := some "a", title := some "Kindle", price := some 10,
    lowestPrice := some 10, imageUrl := none, addedDate := some "t0",
    addedBy := some 1, lastChecked := some "t0", history := some [] }

/-- A second concrete tracked product for the C10 witness. -/
def sampleEcho : Product :=
  { url := some "b", title := some "Echo Dot", price := some 20,
    lowestPrice := some 20, imageUrl := none, addedDate := some "t0",
    addedBy := some 1, lastChecked := some "t0", history := some [] }

/-- Witness for C10: removing by the substring `"Echo"` — whose canonical
form is not a key — deletes the product titled `"Echo Dot"`, and removing
by a string matching nothing returns not-found with the registry intact. -/
theorem claim_C10_remove_fallback_witness :
    regGet [("a", sampleKindle), ("b", sampleEcho)] (sanitizeAmazonURL "Echo")
      = none ∧
    List.find? (removeMatch "Echo") [("a", sampleKindle), ("b", sampleEcho)]
      = some ("b", sampleEcho) ∧
    removeProduct "Echo" [("a", sampleKindle), ("b", sampleEcho)] =
      (.removed "Echo Dot", [("a", sampleKindle)]) ∧
    removeProduct "zzz" [("a", sampleKindle), ("b", sampleEcho)] =
      (.notFound, [("a", sampleKindle), ("b", sampleEcho)]) := by
  have h1 : regGet [("a", sampleKindle), ("b", sampleEcho)]
      (sanitizeAmazonURL "Echo") = none := by
    rw [show sanitizeAmazonURL "Echo" = "Echo" from rfl,
      regGet_cons_ne _ _ (by decide), regGet_cons_ne _ _ (by decide)]
    rfl
  have h2 : List.find? (removeMatch "Echo") [("a", sampleKindle), ("b", sampleEcho)]
      = some ("b", sampleEcho) := by
    rw [List.find?_cons_of_neg _ (by decide), List.find?_cons_of_pos _ (by decide)]
  have h3 : regGet [("a", sampleKindle), ("b", sampleEcho)]
      (sanitizeAmazonURL "zzz") = none := by
    rw [show sanitizeAmazonURL "zzz" = "zzz" from rfl,
      regGet_cons_ne _ _ (by decide), regGet_cons_ne _ _ (by decide)]
    rfl
  have h4 : List.find? (removeMatch "zzz") [("a", sampleKindle), ("b", sampleEcho)]
      = none := by
    rw [List.find?_cons_of_neg _ (by decide), List.find?_cons_of_neg _ (by decide)]
    rfl
  refine ⟨h1, h2, ?_, ?_⟩
  · rw [claim_C10_remove_fallback.1 "Echo" _ "b" sampleEcho h1 h2]
    rw [regDelete_cons_ne _ _ (by decide), regDelete_cons_self]
    rfl
  · exact claim_C10_remove_fallback.2 "zzz" _ h3 h4

/-! ## Claim theorem: C2 -/

theorem observeRun_nil (pr : Product) : observeRun pr [] = pr := rfl

theorem observeRun_cons (pr : Product) (ob : Obs) (obs : List Obs) :
    observeRun pr (ob :: obs) =
      observeRun (updateProduct pr ob.sc ob.sanitized ob.now) obs := rfl

theorem observeRun_lowestPrice (obs : List Obs) :
    ∀ (pr : Product) (L : ℚ), pr.lowestPrice = some L →
      (observeRun pr obs).lowestPrice =
        some ((obs.map fun ob => ob.sc.price).foldl min L) := by
  induction obs with
  | nil =>
    intro pr L h
    rw [observeRun_nil, h]
    rfl
  | cons ob obs ih =>
    intro pr L h
    rw [observeRun_cons]
    have hupd : (updateProduct pr ob.sc ob.sanitized ob.now).lowestPrice =
        some (min ob.sc.price L) := by
      rw [updateProduct_lowestPrice, h, Option.getD_some]
    rw [ih _ _ hupd, List.map_cons, List.foldl_cons, min_comm]

/-- C2: `lowestPrice` starts as the first successful price at add time and
after every sequence of successful cycles equals the minimum of all prices
observed so far (first one included); in particular it never increases. -/
theorem claim_C2_lowest_price_monotone (san0 now0 : String) (chat : Int)
    (sc0 : ScrapeOk) :
    (addProduct san0 now0 chat sc0).lowestPrice = some sc0.price ∧
    (∀ obs : List Obs,
      (observeRun (addProduct san0 now0 chat sc0) obs).lowestPrice =
        some ((obs.map fun ob => ob.sc.price).foldl min sc0.price)) ∧
    (∀ (obs : List Obs) (ob : Obs),
      (observeRun (addProduct san0 now0 chat sc0) (obs ++ [ob])).lowestPrice.getD 0 ≤
        (observeRun (addProduct san0 now0 chat sc0) obs).lowestPrice.getD 0) := by
  have hinit : (addProduct san0 now0 chat sc0).lowestPrice = some sc0.price := rfl
  have hmin : ∀ obs : List Obs,
      (observeRun (addProduct san0 now0 chat sc0) obs).lowestPrice =
        some ((obs.map fun ob => ob.sc.price).foldl min sc0.price) :=
    fun obs => observeRun_lowestPrice obs _ sc0.price hinit
  refine ⟨hinit, hmin, fun obs ob => ?_⟩
  rw [hmin, hmin, Option.getD_some, Option.getD_some, List.map_append,
    List.foldl_append, List.map_cons, List.map_nil, List.foldl_cons,
    List.foldl_nil]
  exact min_le_left _ _

/-! ## Claim theorem: C3 -/

theorem takeLast_length (n : Nat) (l : List HistEntry) :
    (takeLast n l).length = l.length - (l.length - n) := by
  rw [takeLast, List.length_drop]

theorem cutHist_length_le {l : List HistEntry}
    (h : l.length ≤ HISTORY_LIMIT + 1) : (cutHist l).length ≤ HISTORY_LIMIT := by
  rw [cutHist]
  by_cases hl : HISTORY_LIMIT < l.length
  · rw [if_pos hl, takeLast_length]
    omega
  · rw [if_neg hl]
    omega

set_option maxRecDepth 4000 in
theorem cutHist_cutHist_append (X ss : List HistEntry) :
    cutHist (cutHist X ++ ss) = cutHist (X ++ ss) := by
  by_cases hx : HISTORY_LIMIT < X.length
  · have hX : cutHist X = takeLast HISTORY_LIMIT X := by
      rw [cutHist, if_pos hx]
    have hlen : (cutHist X).length = HISTORY_LIMIT := by
      rw [hX, takeLast_length]
      omega
    rcases ss with _ | ⟨e, ss'⟩
    · rw [List.append_nil, List.append_nil]
      rw [cutHist, hlen, if_neg (by omega)]
    · have h1 : HISTORY_LIMIT < (cutHist X ++ e :: ss').length := by
        rw [List.length_append, hlen]
        simp
      have h2 : HISTORY_LIMIT < (X ++ e :: ss').length := by
        rw [List.length_append]
        omega
      have hL : cutHist (cutHist X ++ e :: ss') =
          takeLast HISTORY_LIMIT (cutHist X ++ e :: ss') := by
        rw [cutHist, if_pos h1]
      have hR : cutHist (X ++ e :: ss') =
          takeLast HISTORY_LIMIT (X ++ e :: ss') := by
        rw [cutHist, if_pos h2]
      rw [hL, hR, hX, takeLast, takeLast, takeLast]
      simp only [List.length_append, List.length_drop]
      rw [List.drop_append_eq_append_drop, List.drop_append_eq_append_drop,
        List.drop_drop]
      simp only [List.length_append, List.length_drop, List.length_cons]
      congr 1
      · congr 1
        omega
      · congr 1
        omega
  · have hX : cutHist X = X := by
      rw [cutHist, if_neg hx]
    rw [hX]

theorem observeRun_history (obs : List Obs) :
    ∀ (pr : Product) (h0 : List HistEntry), pr.history = some h0 →
      h0.length ≤ HISTORY_LIMIT →
      (observeRun pr obs).history =
        some (cutHist (h0 ++ obs.map fun ob =>
          (⟨ob.now, ob.sc.price⟩ : HistEntry))) := by
  induction obs with
  | nil =>
    intro pr h0 h hl
    rw [observeRun_nil, h, List.map_nil, List.append_nil, cutHist,
      if_neg (by omega)]
  | cons ob obs ih =>
    intro pr h0 h hl
    rw [observeRun_cons]
    have hupd : (updateProduct pr ob.sc ob.sanitized ob.now).history =
        some (cutHist (h0 ++ [⟨ob.now, ob.sc.price⟩])) := by
      rw [updateProduct_history, h, Option.getD_some]
    have hlen : (cutHist (h0 ++ [(⟨ob.now, ob.sc.price⟩ : HistEntry)])).length ≤
        HISTORY_LIMIT := by
      refine cutHist_length_le ?_
      rw [List.length_append]
      simpa using hl
    rw [ih _ _ hupd hlen, cutHist_cutHist_append, List.append_assoc,
      List.singleton_append, List.map_cons]

/-- C3: starting from a fresh add (one history sample), after
`HISTORY_LIMIT + 5` further successful cycles the history is exactly the
most recent `HISTORY_LIMIT` of the `HISTORY_LIMIT + 6` appended samples,
in chronological order, so its length is exactly the bound. -/
theorem claim_C3_history_bound (san0 now0 : String) (chat : Int)
    (sc0 : ScrapeOk) (obs : List Obs)
    (hlen : obs.length = HISTORY_LIMIT + 5) :
    (observeRun (addProduct san0 now0 chat sc0) obs).history =
      some (takeLast HISTORY_LIMIT
        ((⟨now0, sc0.price⟩ : HistEntry) ::
          obs.map fun ob => ⟨ob.now, ob.sc.price⟩)) ∧
    ((observeRun (addProduct san0 now0 chat sc0) obs).history.getD []).length =
      HISTORY_LIMIT ∧
    takeLast HISTORY_LIMIT
        ((⟨now0, sc0.price⟩ : HistEntry) ::
          obs.map fun ob => ⟨ob.now, ob.sc.price⟩) =
      ((⟨now0, sc0.price⟩ : HistEntry) ::
          obs.map fun ob => ⟨ob.now, ob.sc.price⟩).drop 6 := by
  have hinit : (addProduct san0 now0 chat sc0).history =
      some [⟨now0, sc0.price⟩] := rfl
  have hfull : ((⟨now0, sc0.price⟩ : HistEntry) ::
      obs.map fun ob => (⟨ob.now, ob.sc.price⟩ : HistEntry)).length =
      HISTORY_LIMIT + 6 := by
    rw [List.length_cons, List.length_map, hlen]
  have hrun := observeRun_history obs (addProduct san0 now0 chat sc0)
    [⟨now0, sc0.price⟩] hinit (by simp [HISTORY_LIMIT])
  rw [List.singleton_append] at hrun
  have hcut : cutHist ((⟨now0, sc0.price⟩ : HistEntry) ::
      obs.map fun ob => (⟨ob.now, ob.sc.price⟩ : HistEntry)) =
      takeLast HISTORY_LIMIT ((⟨now0, sc0.price⟩ : HistEntry) ::
        obs.map fun ob => (⟨ob.now, ob.sc.price⟩ : HistEntry)) := by
    rw [cutHist, if_pos (by rw [hfull]; omega)]
  refine ⟨by rw [hrun, hcut], ?_, ?_⟩
  · rw [hrun, hcut, Option.getD_some, takeLast_length, hfull]
    omega
  · rw [takeLast, hfull]
    congr 1

/-- Witness for C3: a concrete run of `HISTORY_LIMIT + 5` identical
observations from a fresh add leaves exactly `HISTORY_LIMIT` samples. -/
theorem claim_C3_history_bound_witness :
    ((observeRun (addProduct "k" "t0" 1 ⟨"T", 5, none⟩)
        (List.replicate (HISTORY_LIMIT + 5)
          ⟨⟨"T", 5, none⟩, "k", "t1"⟩)).history.getD []).length =
      HISTORY_LIMIT :=
  (claim_C3_history_bound "k" "t0" 1 ⟨"T", 5, none⟩
    (List.replicate (HISTORY_LIMIT + 5) ⟨⟨"T", 5, none⟩, "k", "t1"⟩)
    (by rw [List.length_replicate])).2.1

/-! ## Claim theorem: C4 -/

theorem stepKey_err_mk (scrapeOf : String → ScrapeOutcome) (now : String)
    (reg : Registry) (ch : List DropEvent) (er : List String)
    (key : String) (stored : Product) (m : String)
    (hget : regGet reg key = some stored)
    (herr : scrapeOf (sanitizeAmazonURL (stored.url.getD key)) = .err m) :
    stepKey scrapeOf now ⟨reg, ch, er⟩ key =
      ⟨regSet reg key { stored with lastChecked := some now }, ch,
        er ++ [errMsg stored key m]⟩ :=
  stepKey_err hget herr

theorem stepKey_ok_mk (scrapeOf : String → ScrapeOutcome) (now : String)
    (reg : Registry) (ch : List DropEvent) (er : List String)
    (key : String) (stored : Product) (sc : ScrapeOk)
    (hget : regGet reg key = some stored)
    (hok : scrapeOf (sanitizeAmazonURL (stored.url.getD key)) = .ok sc) :
    stepKey scrapeOf now ⟨reg, ch, er⟩ key =
      ⟨if sanitizeAmazonURL (stored.url.getD key) == key then
          regSet reg (sanitizeAmazonURL (stored.url.getD key))
            (updateProduct stored sc (sanitizeAmazonURL (stored.url.getD key)) now)
        else
          regDelete
            (regSet reg (sanitizeAmazonURL (stored.url.getD key))
              (updateProduct stored sc (sanitizeAmazonURL (stored.url.getD key)) now))
            key,
        ch ++ (dropEvent? stored sc (sanitizeAmazonURL (stored.url.getD key))
          (updateProduct stored sc (sanitizeAmazonURL (stored.url.getD key)) now)).toList,
        er⟩ :=
  stepKey_ok hget hok

/-- C4: in a cycle over three products where the middle scrape fails, the
failing product keeps all its fields except `lastChecked`, stays in the
registry, the error is recorded, and the other two products are still
fully updated. -/
theorem claim_C4_error_isolation (scrapeOf : String → ScrapeOutcome)
    (now : String) (k1 k2 k3 : String) (p1 p2 p3 : Product) (m : String)
    (sc1 sc3 : ScrapeOk)
    (h12 : ¬k1 = k2) (h13 : ¬k1 = k3) (h23 : ¬k2 = k3)
    (hs1 : sanitizeAmazonURL (p1.url.getD k1) = k1)
    (hs3 : sanitizeAmazonURL (p3.url.getD k3) = k3)
    (hok1 : scrapeOf k1 = .ok sc1)
    (herr : scrapeOf (sanitizeAmazonURL (p2.url.getD k2)) = .err m)
    (hok3 : scrapeOf k3 = .ok sc3) :
    (checkPrices scrapeOf now [(k1, p1), (k2, p2), (k3, p3)]).1.reg =
      [(k1, updateProduct p1 sc1 k1 now),
       (k2, { p2 with lastChecked := some now }),
       (k3, updateProduct p3 sc3 k3 now)] ∧
    (checkPrices scrapeOf now [(k1, p1), (k2, p2), (k3, p3)]).1.errors =
      [errMsg p2 k2 m] := by
  have hok1' : scrapeOf (sanitizeAmazonURL (p1.url.getD k1)) = .ok sc1 := by
    rw [hs1]
    exact hok1
  have hok3' : scrapeOf (sanitizeAmazonURL (p3.url.getD k3)) = .ok sc3 := by
    rw [hs3]
    exact hok3
  rw [checkPrices, if_neg (by simp)]
  dsimp only
  simp only [List.map_cons, List.map_nil, List.foldl_cons, List.foldl_nil]
  rw [stepKey_ok_mk scrapeOf now [(k1, p1), (k2, p2), (k3, p3)] [] [] k1 p1 sc1
    (regGet_cons_self _ _ _) hok1']
  rw [hs1, if_pos (show (k1 == k1) = true by simp), regSet_cons_self,
    List.nil_append]
  rw [stepKey_err_mk scrapeOf now
    ((k1, updateProduct p1 sc1 k1 now) :: [(k2, p2), (k3, p3)])
    ((dropEvent? p1 sc1 k1 (updateProduct p1 sc1 k1 now)).toList) []
    k2 p2 m
    (by rw [regGet_cons_ne _ _ h12, regGet_cons_self]) herr]
  rw [regSet_cons_ne _ _ _ h12, regSet_cons_self, List.nil_append]
  rw [stepKey_ok_mk scrapeOf now
    ((k1, updateProduct p1 sc1 k1 now) ::
      (k2, { p2 with lastChecked := some now }) :: [(k3, p3)])
    ((dropEvent? p1 sc1 k1 (updateProduct p1 sc1 k1 now)).toList)
    [errMsg p2 k2 m]
    k3 p3 sc3
    (by rw [regGet_cons_ne _ _ h13, regGet_cons_ne _ _ h23, regGet_cons_self])
    hok3']
  rw [hs3, if_pos (show (k3 == k3) = true by simp), regSet_cons_ne _ _ _ h13,
    regSet_cons_ne _ _ _ h23, regSet_cons_self]
  exact ⟨rfl, rfl⟩

/-- Concrete products for the C4 witness. -/
def prodA : Product :=
  { url := some "a", title := some "TA", price := some 30,
    lowestPrice := some 30, imageUrl := none, addedDate := some "t0",
    addedBy := some 1, lastChecked := some "t0", history := some [] }

/-- Concrete products for the C4 witness. -/
def prodB : Product :=
  { url := some "b", title := some "TB", price := some 40,
    lowestPrice := some 40, imageUrl := none, addedDate := some "t0",
    addedBy := some 1, lastChecked := some "t0", history := some [] }

/-- Concrete products for the C4 witness. -/
def prodC : Product :=
  { url := some "c", title := some "TC", price := some 50,
    lowestPrice := some 50, imageUrl := none, addedDate := some "t0",
    addedBy := some 1, lastChecked := some "t0", history := some [] }

/-- A scrape collaborator that succeeds on products 1 and 3 and throws on
product 2. -/
def scrapeOfC4 : String → ScrapeOutcome := fun s =>
  if s == "a" then .ok ⟨"T1", 10, none⟩
  else if s == "b" then .err "boom"
  else .ok ⟨"T3", 5, none⟩

/-- Witness for C4 at the concrete three-product registry. -/
theorem claim_C4_error_isolation_witness :
    (checkPrices scrapeOfC4 "t1" [("a", prodA), ("b", prodB), ("c", prodC)]).1.reg =
      [("a", updateProduct prodA ⟨"T1", 10, none⟩ "a" "t1"),
       ("b", { prodB with lastChecked := some "t1" }),
       ("c", updateProduct prodC ⟨"T3", 5, none⟩ "c" "t1")] ∧
    (checkPrices scrapeOfC4 "t1" [("a", prodA), ("b", prodB), ("c", prodC)]).1.errors =
      [errMsg prodB "b" "boom"] :=
  claim_C4_error_isolation scrapeOfC4 "t1" "a" "b" "c" prodA prodB prodC "boom"
    ⟨"T1", 10, none⟩ ⟨"T3", 5, none⟩ (by decide) (by decide) (by decide)
    (by decide) (by decide) rfl rfl rfl

/-! ## Claim theorem: C7 -/

/-- Folding the cycle step over keys whose registry entries are *stable*
(their stored URL canonicalizes back to their own key) touches only those
keys: any other key's entry is untouched, and key-distinctness of the
registry is preserved. -/
theorem stableFold (scrapeOf : String → ScrapeOutcome) (now : String) :
    ∀ (ks : List String) (st : CycleState),
      (∀ j ∈ ks, ∀ pj, regGet st.reg j = some pj →
        sanitizeAmazonURL (pj.url.getD j) = j) →
      (∀ x, x ∉ ks →
        regGet ((ks.foldl (stepKey scrapeOf now) st).reg) x = regGet st.reg x) ∧
      ((st.reg.map Prod.fst).Nodup →
        (((ks.foldl (stepKey scrapeOf now) st).reg).map Prod.fst).Nodup) := by
  intro ks
  induction ks with
  | nil =>
    intro st _
    exact ⟨fun x _ => rfl, fun h => h⟩
  | cons j ks ih =>
    intro st hstab
    rw [List.foldl_cons]
    rcases hg : regGet st.reg j with _ | pj
    · rw [stepKey_none hg]
      have hstab' : ∀ j' ∈ ks, ∀ pj, regGet st.reg j' = some pj →
          sanitizeAmazonURL (pj.url.getD j') = j' :=
        fun j' hj' => hstab j' (List.mem_cons_of_mem _ hj')
      exact ⟨fun x hx => (ih st hstab').1 x fun h => hx (List.mem_cons_of_mem _ h),
        (ih st hstab').2⟩
    · have hsj : sanitizeAmazonURL (pj.url.getD j) = j :=
        hstab j (List.mem_cons_self _ _) pj hg
      rcases hsc : scrapeOf j with m | sc
      · have herr : scrapeOf (sanitizeAmazonURL (pj.url.getD j)) = .err m := by
          rw [hsj]
          exact hsc
        rw [stepKey_err hg herr]
        have hstab' : ∀ j' ∈ ks, ∀ p',
            regGet (regSet st.reg j { pj with lastChecked := some now }) j' =
              some p' →
            sanitizeAmazonURL (p'.url.getD j') = j' := by
          intro j' hj' p' hp'
          by_cases hjj : j' = j
          · subst hjj
            rw [regGet_regSet_self] at hp'
            cases hp'
            exact hsj
          · rw [regGet_regSet_ne _ _ hjj] at hp'
            exact hstab j' (List.mem_cons_of_mem _ hj') p' hp'
        have IH := ih ⟨regSet st.reg j { pj with lastChecked := some now },
          st.changed, st.errors ++ [errMsg pj j m]⟩ hstab'
        refine ⟨fun x hx => ?_, fun hnd => ?_⟩
        · have hx1 : x ∉ ks := fun h => hx (List.mem_cons_of_mem _ h)
          have hx2 : ¬x = j := fun h => hx (h ▸ List.mem_cons_self _ _)
          rw [IH.1 x hx1]
          exact regGet_regSet_ne _ _ hx2
        · exact IH.2 (nodup_regSet _ _ hnd)
      · have hok : scrapeOf (sanitizeAmazonURL (pj.url.getD j)) = .ok sc := by
          rw [hsj]
          exact hsc
        rw [stepKey_ok hg hok, hsj, if_pos (show (j == j) = true by simp)]
        have hstab' : ∀ j' ∈ ks, ∀ p',
            regGet (regSet st.reg j (updateProduct pj sc j now)) j' = some p' →
            sanitizeAmazonURL (p'.url.getD j') = j' := by
          intro j' hj' p' hp'
          by_cases hjj : j' = j
          · subst hjj
            rw [regGet_regSet_self] at hp'
            cases hp'
            rw [updateProduct_url, Option.getD_some, ← hsj]
            exact sanitizeAmazonURL_idem _
          · rw [regGet_regSet_ne _ _ hjj] at hp'
            exact hstab j' (List.mem_cons_of_mem _ hj') p' hp'
        have IH := ih ⟨regSet st.reg j (updateProduct pj sc j now),
          st.changed ++ (dropEvent? pj sc j (updateProduct pj sc j now)).toList,
          st.errors⟩ hstab'
        refine ⟨fun x hx => ?_, fun hnd => ?_⟩
        · have hx1 : x ∉ ks := fun h => hx (List.mem_cons_of_mem _ h)
          have hx2 : ¬x = j := fun h => hx (h ▸ List.mem_cons_self _ _)
          rw [IH.1 x hx1]
          exact regGet_regSet_ne _ _ hx2
        · exact IH.2 (nodup_regSet _ _ hnd)

/-- C7: when a product's stored key differs from the canonical form of its
URL and its scrape succeeds (all other products being stable and the
canonical key fresh), one cycle leaves the old key absent, the canonical
key holding the updated product with `lowestPrice`/`history` carried
forward from the stored one, and the registry is persisted exactly once —
the single saved snapshot being the final state, so no state with both or
neither key is ever written. -/
theorem claim_C7_key_rewrite (scrapeOf : String → ScrapeOutcome) (now : String)
    (reg : Registry) (k : String) (stored : Product) (sc : ScrapeOk)
    (hnodup : (reg.map Prod.fst).Nodup)
    (hget : regGet reg k = some stored)
    (hkne : ¬sanitizeAmazonURL (stored.url.getD k) = k)
    (hfresh : sanitizeAmazonURL (stored.url.getD k) ∉ reg.map Prod.fst)
    (hok : scrapeOf (sanitizeAmazonURL (stored.url.getD k)) = .ok sc)
    (hstable : ∀ k' p', (k', p') ∈ reg → ¬k' = k →
      sanitizeAmazonURL (p'.url.getD k') = k') :
    regGet (checkPrices scrapeOf now reg).1.reg k = none ∧
    regGet (checkPrices scrapeOf now reg).1.reg
        (sanitizeAmazonURL (stored.url.getD k)) =
      some (updateProduct stored sc (sanitizeAmazonURL (stored.url.getD k)) now) ∧
    (checkPrices scrapeOf now reg).2 = [(checkPrices scrapeOf now reg).1.reg] ∧
    (updateProduct stored sc (sanitizeAmazonURL (stored.url.getD k)) now).lowestPrice =
      some (min sc.price (stored.lowestPrice.getD sc.price)) ∧
    (updateProduct stored sc (sanitizeAmazonURL (stored.url.getD k)) now).history =
      some (cutHist (stored.history.getD [] ++ [⟨now, sc.price⟩])) := by
  have hmemk : k ∈ reg.map Prod.fst := List.mem_map_of_mem Prod.fst (regGet_mem hget)
  have hne : ¬reg.isEmpty = true := by
    rcases reg with _ | e
    · simp at hmemk
    · simp
  obtain ⟨A, B, hAB⟩ := List.append_of_mem hmemk
  have hnodups : (A ++ k :: B).Nodup := hAB ▸ hnodup
  obtain ⟨hAnod, hkBnod, hdisj⟩ := List.nodup_append.mp hnodups
  have hkA : k ∉ A := fun h => hdisj h (List.mem_cons_self _ _)
  have hkB : k ∉ B := (List.nodup_cons.mp hkBnod).1
  have hcp : checkPrices scrapeOf now reg =
      ((reg.map Prod.fst).foldl (stepKey scrapeOf now) ⟨reg, [], []⟩,
       [((reg.map Prod.fst).foldl (stepKey scrapeOf now) ⟨reg, [], []⟩).reg]) := by
    rw [checkPrices, if_neg hne]
  rw [hcp]
  dsimp only
  rw [hAB, List.foldl_append, List.foldl_cons]
  -- phase A: all keys before `k` are stable, so `k` and the canonical key
  -- are untouched
  have hstabA : ∀ j ∈ A, ∀ pj,
      regGet ((⟨reg, [], []⟩ : CycleState).reg) j = some pj →
      sanitizeAmazonURL (pj.url.getD j) = j := by
    intro j hj pj hpj
    have hjk : ¬j = k := fun h => hkA (h ▸ hj)
    exact hstable j pj (regGet_mem hpj) hjk
  have SFA := stableFold scrapeOf now A ⟨reg, [], []⟩ hstabA
  have hgA : regGet (A.foldl (stepKey scrapeOf now) ⟨reg, [], []⟩).reg k =
      some stored := by
    rw [SFA.1 k hkA]
    exact hget
  have hsanA : sanitizeAmazonURL (stored.url.getD k) ∉ A := fun h =>
    hfresh (hAB ▸ List.mem_append_left _ h)
  have hsanB : sanitizeAmazonURL (stored.url.getD k) ∉ B := fun h =>
    hfresh (hAB ▸ List.mem_append_right _ (List.mem_cons_of_mem _ h))
  have hgsanA : regGet (A.foldl (stepKey scrapeOf now) ⟨reg, [], []⟩).reg
      (sanitizeAmazonURL (stored.url.getD k)) = none := by
    rw [SFA.1 _ hsanA]
    exact regGet_eq_none_of_not_mem hfresh
  have hnodA : ((A.foldl (stepKey scrapeOf now) ⟨reg, [], []⟩).reg.map
      Prod.fst).Nodup := SFA.2 hnodup
  -- the step at `k` itself
  rw [stepKey_ok hgA hok, if_neg (show ¬(sanitizeAmazonURL (stored.url.getD k) == k)
    = true by simpa using hkne)]
  -- phase B: the remaining keys are stable and distinct from both keys
  have hstabB : ∀ j ∈ B, ∀ p',
      regGet ((⟨regDelete
          (regSet (A.foldl (stepKey scrapeOf now) ⟨reg, [], []⟩).reg
            (sanitizeAmazonURL (stored.url.getD k))
            (updateProduct stored sc (sanitizeAmazonURL (stored.url.getD k)) now))
          k,
        (A.foldl (stepKey scrapeOf now) ⟨reg, [], []⟩).changed ++
          (dropEvent? stored sc (sanitizeAmazonURL (stored.url.getD k))
            (updateProduct stored sc (sanitizeAmazonURL (stored.url.getD k)) now)).toList,
        (A.foldl (stepKey scrapeOf now) ⟨reg, [], []⟩).errors⟩ : CycleState).reg) j =
        some p' →
      sanitizeAmazonURL (p'.url.getD j) = j := by
    intro j hj p' hp'
    have hjk : ¬j = k := fun h => hkB (h ▸ hj)
    have hjs : ¬j = sanitizeAmazonURL (stored.url.getD k) := fun h =>
      hfresh (h ▸ hAB ▸ List.mem_append_right _ (List.mem_cons_of_mem _ hj))
    dsimp only at hp'
    rw [regGet_regDelete_ne _ hjk, regGet_regSet_ne _ _ hjs] at hp'
    have hjA : j ∉ A := fun h => hdisj h (List.mem_cons_of_mem _ hj)
    rw [SFA.1 j hjA] at hp'
    exact hstable j p' (regGet_mem hp') hjk
  have SFB := stableFold scrapeOf now B _ hstabB
  refine ⟨?_, ?_, rfl, updateProduct_lowestPrice _ _ _ _,
    updateProduct_history _ _ _ _⟩
  · rw [SFB.1 k hkB]
    dsimp only
    exact regGet_regDelete_self_of_nodup (nodup_regSet _ _ hnodA)
  · rw [SFB.1 _ hsanB]
    dsimp only
    rw [regGet_regDelete_ne _ hkne, regGet_regSet_self]

/-- A product stored under a non-canonical key for the C7 witness. -/
def rewriteStored : Product :=
  { url := some "https://x.com/dp/ABC?x=1", title := some "T",
    price := some 10, lowestPrice := some 8, imageUrl := none,
    addedDate := some "t0", addedBy := some 1, lastChecked := some "t0",
    history := some [⟨"t0", 10⟩] }

/-- A scrape collaborator that always succeeds, for the C7 witness. -/
def scrapeOfC7 : String → ScrapeOutcome := fun _ => .ok ⟨"T", 9, none⟩

/-- Witness for C7: the product stored under `…/dp/ABC?x=1` is rewritten
under `…/dp/ABC` in one cycle, with exactly one persisted snapshot. -/
theorem claim_C7_key_rewrite_witness :
    regGet (checkPrices scrapeOfC7 "t1"
        [("https://x.com/dp/ABC?x=1", rewriteStored)]).1.reg
      "https://x.com/dp/ABC?x=1" = none ∧
    regGet (checkPrices scrapeOfC7 "t1"
        [("https://x.com/dp/ABC?x=1", rewriteStored)]).1.reg
      "https://x.com/dp/ABC" =
      some (updateProduct rewriteStored ⟨"T", 9, none⟩ "https://x.com/dp/ABC" "t1") ∧
    (checkPrices scrapeOfC7 "t1" [("https://x.com/dp/ABC?x=1", rewriteStored)]).2 =
      [(checkPrices scrapeOfC7 "t1"
        [("https://x.com/dp/ABC?x=1", rewriteStored)]).1.reg] := by
  have hsan : sanitizeAmazonURL (rewriteStored.url.getD "https://x.com/dp/ABC?x=1")
      = "https://x.com/dp/ABC" := by decide
  have H := claim_C7_key_rewrite scrapeOfC7 "t1"
    [("https://x.com/dp/ABC?x=1", rewriteStored)] "https://x.com/dp/ABC?x=1"
    rewriteStored ⟨"T", 9, none⟩
    (by decide)
    (regGet_cons_self _ _ _)
    (by rw [hsan]; decide)
    (by rw [hsan]; decide)
    (by rw [hsan]; rfl)
    (by
      intro k' p' hm hn
      rw [List.mem_singleton] at hm
      injection hm with h1 h2
      exact absurd h1 hn)
  rw [hsan] at H
  exact ⟨H.1, H.2.1, H.2.2.1⟩

end Telebot
